import Mathlib

/-!
Verification of the alias-resolution engine of a Vite plugin that compiles
TypeScript `tsconfig.json` path mappings into module-resolution rules.

The repository contains two near-identical variants of the engine:
* Variant 1 ("existence-checking"): `resolveAliases` probes each candidate
  target with `existsSync` and picks the first target whose resolved
  directory exists.
* Variant 2 ("always-first-priority"): `resolveAliases` unconditionally
  takes the first-listed target, with no existence check.

The embedding below translates the source functions.  External effects are
made explicit parameters:
* the file system is a function `String → Option FileContent`
  (for `existsSync` + `readFileSync` + `JSON.parse`), and a predicate
  `String → Bool` for the directory-existence probe `existsSync`;
* `process.cwd()` is an explicit `cwd : String` argument wherever the
  source calls `node:path`'s `resolve` (which anchors at the cwd);
* the module-scope regular expression `configDirRegex = /\$\x7bconfigDir\x7d/g`
  carries a mutable `lastIndex` because of its `g` flag; its state is
  threaded explicitly as a `Nat` through the inheritance walker, which is
  the only place the source calls `.test` on it;
* the host's module resolution (`this.resolve`) is a function
  `String → Option String`.

JavaScript strings are modelled as Lean `String`; the repository only ever
manipulates them by concatenation, slicing and literal search, which the
list-of-characters model matches exactly.  All string primitives used in
definitions are implemented here by structural recursion over `List Char`
so that every definition evaluates by kernel reduction on concrete input.
-/

/-- Literal `$\x7bconfigDir\x7d` token that the source's `configDirRegex`
matches (the regex has no meta-semantics beyond the literal text). -/
def configDirToken : String := "$\x7bconfigDir\x7d"

/-- First index `≥ start` (the index accumulator) at which `pat` occurs in
`l`; `none` when there is no occurrence.  Mirrors JavaScript's regex/
`indexOf` search for a literal pattern. -/
def findSubAux (pat : List Char) : List Char → Nat → Option Nat
  | [], i => if pat.isPrefixOf ([] : List Char) then some i else none
  | l@(_ :: tl), i => if pat.isPrefixOf l then some i else findSubAux pat tl (i + 1)

/-- Models JavaScript `s.includes(pat)` / a literal regex test with no
`g`-state involved. -/
def strContains (s pat : String) : Bool :=
  (findSubAux pat.toList s.toList 0).isSome

/-- Models `s.includes('$\x7bconfigDir\x7d')` and one stateless test of the
configDir regex. -/
def containsToken (s : String) : Bool :=
  strContains s configDirToken

/-- Stateful `configDirRegex.test(s)` : a `g`-flagged JavaScript regex
resumes searching at `lastIndex`, sets `lastIndex` past the match on
success and resets it to `0` on failure. -/
def regexTestFrom (s : String) (lastIndex : Nat) : Bool × Nat :=
  match findSubAux configDirToken.toList (s.toList.drop lastIndex) lastIndex with
  | some j => (true, j + configDirToken.toList.length)
  | none => (false, 0)

/-- Models JavaScript `String(x)` on an optional string (`String(undefined)`
is the text `"undefined"`). -/
def jsStringOfOptStr : Option String → String
  | none => "undefined"
  | some s => s

/-- JavaScript truthiness of an optional string: `undefined` and the empty
string are falsy. -/
def jsTruthyOptStr : Option String → Bool
  | none => false
  | some s => !s.toList.isEmpty

/-- Models `s.startsWith(pre)`. -/
def strStartsWith (s pre : String) : Bool :=
  pre.toList.isPrefixOf s.toList

/-- Models `s.endsWith(suf)`. -/
def strEndsWith (s suf : String) : Bool :=
  suf.toList.reverse.isPrefixOf s.toList.reverse

/-- Models `s.slice(0, -n)` for `n ≤ s.length` (drop the last `n`
characters). -/
def strDropRight (s : String) (n : Nat) : String :=
  (s.toList.take (s.toList.length - n)).asString

/-- Fueled kernel-reducible core of global literal replacement. -/
def replaceAllFuel (pat rep : List Char) : Nat → List Char → List Char
  | 0, l => l
  | _ + 1, [] => []
  | fuel + 1, c :: rest =>
    if pat ≠ [] ∧ pat.isPrefixOf (c :: rest) then
      rep ++ replaceAllFuel pat rep fuel (List.drop (pat.length - 1) rest)
    else
      c :: replaceAllFuel pat rep fuel rest

/-- Models JavaScript `s.replace(/pat/g, rep)` for a literal pattern:
every non-overlapping occurrence is replaced left-to-right, without
re-scanning replaced text. -/
def jsReplaceAll (s pat rep : String) : String :=
  (replaceAllFuel pat.toList rep.toList s.toList.length s.toList).asString

/-- Models JavaScript `s.replace(pat, rep)` with a *string* pattern: only
the first literal occurrence is replaced. -/
def replaceFirst (s pat rep : String) : String :=
  match findSubAux pat.toList s.toList 0 with
  | some j => ((s.toList.take j) ++ rep.toList ++ (s.toList.drop (j + pat.toList.length))).asString
  | none => s

/-! ## A model of `node:path` (posix flavour)

`resolve`, `join` and `dirname` from `node:path`, specialised to posix
separators, which is what the plugin manipulates. -/

/-- Split a character list on `'/'` (keeping empty pieces, as
`path` normalisation does before discarding them). -/
def splitSlash : List Char → List (List Char)
  | [] => [[]]
  | c :: rest =>
    if c = '/' then [] :: splitSlash rest
    else
      match splitSlash rest with
      | [] => [[c]]
      | h :: t => (c :: h) :: t

/-- Join pieces with `'/'` (inverse of `splitSlash` on slash-free
pieces). -/
def joinSlash : List (List Char) → List Char
  | [] => []
  | [p] => p
  | p :: rest => p ++ '/' :: joinSlash rest

/-- The `..` path segment. -/
def dotdot : List Char := ['.', '.']

/-- Node's `normalizeString` segment stack: drop empty and `.` segments,
let `..` pop a previous segment (clamping at the root for absolute paths,
accumulating leading `..` for relative ones). -/
def normStack (abs : Bool) : List (List Char) → List (List Char) → List (List Char)
  | stack, [] => stack.reverse
  | stack, seg :: rest =>
    if seg = [] ∨ seg = ['.'] then normStack abs stack rest
    else if seg = dotdot then
      match stack with
      | [] => normStack abs (if abs then [] else [dotdot]) rest
      | top :: stk =>
        if top = dotdot then normStack abs (seg :: top :: stk) rest
        else normStack abs stk rest
    else normStack abs (seg :: stack) rest

/-- Models `path.posix.normalize` as used by `resolve`/`join` (no trailing
separator is kept, matching `resolve`'s output shape). -/
def nodeNormalize (s : String) : String :=
  let l := s.toList
  let abs := strStartsWith s "/"
  let core := joinSlash (normStack abs [] (splitSlash l))
  if abs then ('/' :: core).asString
  else if core = [] then "." else core.asString

/-- Models `path.posix.resolve(...parts)` anchored at `cwd`
(`process.cwd()`): the rightmost absolute part wins, later relative parts
are appended, empty parts are skipped, and the result is normalised. -/
def nodeResolve (cwd : String) (parts : List String) : String :=
  let raw := parts.foldl
    (fun acc p =>
      if p = "" then acc
      else if strStartsWith p "/" then p
      else acc ++ "/" ++ p)
    cwd
  nodeNormalize raw

/-- Models `path.posix.join(a, b)`. -/
def nodeJoin (a b : String) : String :=
  nodeNormalize (if a = "" then b else if b = "" then a else a ++ "/" ++ b)

/-- Models `path.posix.dirname`. -/
def nodeDirname (p : String) : String :=
  let segs := (splitSlash p.toList).filter (fun s => !s.isEmpty)
  let core := joinSlash segs.dropLast
  if strStartsWith p "/" then ('/' :: core).asString
  else if segs.dropLast = [] then "." else core.asString

/-! ## Data model (from the source's type declarations) -/

/-- `compilerOptions` as read by `resolveTsConfigPath`: only `paths` and
`baseUrl` are extracted.  `paths` is a `Record<string, Array<string>>`,
modelled as an association list in the object's (insertion) key order,
which `Object.entries` preserves. -/
structure CompilerOptions where
  paths : Option (List (String × List String))
  baseUrl : Option String
deriving DecidableEq

/-- The `TsConfig` shape of the source: `compilerOptions` plus the
`extends` array (named `extendsArr` here because `extends` is reserved in
Lean). -/
structure TsConfig where
  compilerOptions : CompilerOptions
  extendsArr : Option (List String)
deriving DecidableEq

/-- `UnresolvedAlias` of the source. -/
structure UnresolvedAlias where
  baseUrl : Option String
  paths : List (String × List String)
deriving DecidableEq

/-- `ResolvedAlias` of the source. -/
structure ResolvedAlias where
  find : String
  replacement : String
deriving DecidableEq

/-- Contents found on disk at a path: a parseable tsconfig document (the
parts the reader extracts) or an unparseable file.  `JSON.parse` itself is
external; only its two observable outcomes are modelled. -/
inductive FileContent where
  | parsed (config : TsConfig)
  | malformed
deriving DecidableEq

/-- JavaScript exceptions the engine can raise. -/
inductive JsError where
  | typeError
  | parseError
  | enoent
deriving DecidableEq

/-- The file system as seen by the config reader. -/
def FsFiles : Type := String → Option FileContent

/-! ## Config reader (`resolveTsConfigPath`, identical in both variants) -/

/-- Embedding of `resolveTsConfigPath` (variant 1 and, verbatim, variant
2): resolve the path, return `none` ("no config") when no file exists
there, otherwise read and parse it — a parse failure is a thrown error —
and extract exactly `extends`, `compilerOptions.baseUrl` and
`compilerOptions.paths`. -/
def resolveTsConfigPath (cwd : String) (fs : FsFiles) (tsConfigPath : String) :
    Except JsError (Option TsConfig) :=
  let resolvedTsconfigPath := nodeResolve cwd [tsConfigPath]
  let tsconfigExists := (fs (nodeResolve cwd [resolvedTsconfigPath])).isSome
  if !tsconfigExists then .ok none
  else
    match fs resolvedTsconfigPath with
    | none => .error .enoent
    | some .malformed => .error .parseError
    | some (.parsed tsConfigContent) =>
      .ok (some {
        extendsArr := tsConfigContent.extendsArr
        compilerOptions := {
          baseUrl := tsConfigContent.compilerOptions.baseUrl
          paths := tsConfigContent.compilerOptions.paths } })

/-! ## Inheritance walker (`getRecursivePathsFromTsConfig`, identical in
both variants; each variant file owns one instance of the stateful
`configDirRegex`, threaded here as the `Nat` state) -/

/-- One pass of `values.filter((v) => configDirRegex.test(String(v)) ...)`
over the values of one `paths` entry, threading the regex state and
returning the per-value test outcomes in order. -/
def testValuesAux : List String → Nat → List Bool × Nat
  | [], st => ([], st)
  | v :: vs, st =>
    let (b, st1) := regexTestFrom (jsStringOfOptStr (some v)) st
    let (bs, st2) := testValuesAux vs st1
    (b :: bs, st2)

/-- The `Object.fromEntries(Object.entries(paths).filter(...))` step of the
walker: keep the entries at least one of whose values contains the
placeholder (per the stateful regex), and record — as the source does via
the `pathsHasConfigDir` mutable flag — whether any value anywhere
matched. -/
def filterPathsValues : List (String × List String) → Nat →
    List (String × List String) × Bool × Nat
  | [], st => ([], false, st)
  | (pattern, values) :: rest, st =>
    let (bs, st1) := testValuesAux values st
    let (kept, flag, st2) := filterPathsValues rest st1
    (if bs.any id then (pattern, values) :: kept else kept, (bs.any id || flag), st2)

/-- The pure part of one `extends` loop iteration, after the referenced
config has been read: decide what the parent contributes.  Keeps the full
`paths` when the parent's `baseUrl` contains the placeholder, otherwise
keeps only entries with a placeholder-bearing value; drops the parent
entirely when it has no `paths`, or has neither a truthy `baseUrl` nor any
placeholder-bearing value. -/
def processParentContent (st : Nat) (c : Option TsConfig) :
    Option UnresolvedAlias × Nat :=
  let baseUrlStr := jsStringOfOptStr (c.bind (fun t => t.compilerOptions.baseUrl))
  let (baseUrlHasConfigDir, st1) := regexTestFrom baseUrlStr st
  match c with
  | none => (none, st1)
  | some cc =>
    match cc.compilerOptions.paths with
    | none => (none, st1)
    | some ps =>
      let (paths, pathsHasConfigDir, st2) :=
        if baseUrlHasConfigDir then (ps, false, st1)
        else filterPathsValues ps st1
      if !jsTruthyOptStr cc.compilerOptions.baseUrl && !pathsHasConfigDir then
        (none, st2)
      else
        (some { baseUrl := cc.compilerOptions.baseUrl, paths := paths }, st2)

/-- One full `extends` loop iteration: rewrite a bare package reference
into `node_modules` (appending `.json` when missing), read the referenced
config, then apply `processParentContent`. -/
def processExtendsEntry (cwd root : String) (fs : FsFiles) (st : Nat)
    (extendsPathIn : String) : Except JsError (Option UnresolvedAlias × Nat) :=
  let extendsPath :=
    if !strStartsWith extendsPathIn "/" && !strStartsWith extendsPathIn "./" then
      nodeResolve cwd [nodeJoin root "node_modules",
        if strEndsWith extendsPathIn ".json" then extendsPathIn
        else extendsPathIn ++ ".json"]
    else extendsPathIn
  match resolveTsConfigPath cwd fs extendsPath with
  | .error e => .error e
  | .ok c => .ok (processParentContent st c)

/-- The `for (let extendsPath of tsConfigContent.extends)` loop. -/
def walkExtends (cwd root : String) (fs : FsFiles) :
    List UnresolvedAlias → Nat → List String →
    Except JsError (List UnresolvedAlias × Nat)
  | acc, st, [] => .ok (acc, st)
  | acc, st, p :: rest =>
    match processExtendsEntry cwd root fs st p with
    | .error e => .error e
    | .ok (none, st1) => walkExtends cwd root fs acc st1 rest
    | .ok (some u, st1) => walkExtends cwd root fs (acc ++ [u]) st1 rest

/-- Embedding of `getRecursivePathsFromTsConfig`: read the root config,
contribute its own `{baseUrl, paths}` pair when both are (truthily)
declared, then walk the `extends` array. -/
def getRecursivePathsFromTsConfig (cwd : String) (fs : FsFiles)
    (root tsConfigPath : String) (st : Nat) :
    Except JsError (List UnresolvedAlias × Nat) :=
  match resolveTsConfigPath cwd fs tsConfigPath with
  | .error e => .error e
  | .ok tsConfigContent =>
    let init : List UnresolvedAlias :=
      match tsConfigContent with
      | some t =>
        match t.compilerOptions.paths, t.compilerOptions.baseUrl with
        | some ps, some b => if b ≠ "" then [{ baseUrl := some b, paths := ps }] else []
        | _, _ => []
      | none => []
    match tsConfigContent.bind (fun t => t.extendsArr) with
    | none => .ok (init, st)
    | some l => walkExtends cwd root fs init st l

/-! ## Alias compiler, variant 1 (existence-checking)

Functions from the variant whose `resolveAliases` filters the resolved
targets through `existsSync`. -/

namespace Variant1

/-- `tsAliasSuffix` of the source. -/
def tsAliasSuffix : String := "/*"

/-- Embedding of `removeSuffixPatternFromTsAlias`: strip a trailing `/*`
when present, otherwise return the alias unchanged. -/
def removeSuffixPatternFromTsAlias (tsAlias : String) : String :=
  if strEndsWith tsAlias tsAliasSuffix then
    strDropRight tsAlias tsAliasSuffix.toList.length
  else tsAlias

/-- The per-element body of `resolveMaps`: strip the target's `/*`, then
`resolve(baseUrl)` for a bare `*` target, else `resolve(baseUrl, target
with the placeholder erased)`. -/
def resolveMap (cwd baseUrlArg m : String) : String :=
  let mapWithoutSuffixPattern := removeSuffixPatternFromTsAlias m
  if mapWithoutSuffixPattern = "*" then nodeResolve cwd [baseUrlArg]
  else nodeResolve cwd [baseUrlArg, jsReplaceAll mapWithoutSuffixPattern configDirToken ""]

/-- Embedding of `resolveMaps` (the source overwrites `maps[m]` in place;
each slot is written exactly once, so this is the element-wise map). -/
def resolveMaps (cwd baseUrlArg : String) (maps : List String) : List String :=
  maps.map (resolveMap cwd baseUrlArg)

/-- The `_baseUrl` expression of variant 1's `resolveAliases`:
`(baseUrl === '.' ? root : baseUrl?.startsWith('$\x7bconfigDir\x7d') ?
baseUrl.replace(configDirRegex, root) : baseUrl) ?? root`. -/
def effectiveBaseUrl (root : String) (baseUrl : Option String) : String :=
  match baseUrl with
  | none => root
  | some b =>
    if b = "." then root
    else if strStartsWith b configDirToken then jsReplaceAll b configDirToken root
    else b

/-- The body of variant 1's `resolveAliases` inner loop for one
`(pattern, remaps)` entry: skip when the stripped pattern is empty, else
take the head of the `existsSync`-filtered resolved targets, skipping the
entry when that head is absent or empty. -/
def compileEntry (cwd : String) (dirExists : String → Bool) (root : String)
    (baseUrl : Option String) (pattern : String) (remaps : List String) :
    Option ResolvedAlias :=
  if removeSuffixPatternFromTsAlias pattern = "" then none
  else
    match (resolveMaps cwd (effectiveBaseUrl root baseUrl) remaps).filter dirExists with
    | [] => none
    | map :: _ =>
      if map = "" then none
      else some { find := removeSuffixPatternFromTsAlias pattern, replacement := map }

/-- The inner `for (const [pattern, remaps] of Object.entries(paths))`
loop. -/
def compileEntries (cwd : String) (dirExists : String → Bool) (root : String)
    (baseUrl : Option String) : List (String × List String) → List ResolvedAlias
  | [] => []
  | (pattern, remaps) :: rest =>
    match compileEntry cwd dirExists root baseUrl pattern remaps with
    | none => compileEntries cwd dirExists root baseUrl rest
    | some r => r :: compileEntries cwd dirExists root baseUrl rest

/-- Embedding of variant 1's `resolveAliases`: compile every entry of
every unresolved alias set, in discovery order, keeping the rules whose
first existing target was found. -/
def resolveAliases (cwd : String) (dirExists : String → Bool) (root : String) :
    List UnresolvedAlias → List ResolvedAlias
  | [] => []
  | ua :: rest =>
    compileEntries cwd dirExists root ua.baseUrl ua.paths ++
      resolveAliases cwd dirExists root rest

end Variant1

/-! ## Alias compiler, variant 2 (always-first-priority) -/

namespace Variant2

/-- Embedding of `tryExtractFindPatternFromTsAlias`: strip a trailing `/*`,
returning `undefined` (here `none`) when the alias does not end with it. -/
def tryExtractFindPatternFromTsAlias (tsAlias : String) : Option String :=
  if strEndsWith tsAlias Variant1.tsAliasSuffix then
    some (strDropRight tsAlias Variant1.tsAliasSuffix.toList.length)
  else none

/-- The `_baseUrl` expression of variant 2's `resolveAliases`:
`const _baseUrl = baseUrl === '.' ? root : baseUrl` (still `undefined` when
`baseUrl` is). -/
def effectiveBaseUrl (root : String) (baseUrl : Option String) : Option String :=
  match baseUrl with
  | some b => some (if b = "." then root else b)
  | none => none

/-- The replacement pushed by variant 2's `resolveAliases` once the find
pattern and the suffix-stripped first target are in hand. -/
def aliasReplacement (cwd root : String) (baseUrl : Option String)
    (remapNoSuffix : String) : String :=
  match effectiveBaseUrl root baseUrl with
  | some b =>
    if b ≠ "" then
      if containsToken b then
        nodeResolve cwd [nodeJoin (jsReplaceAll b configDirToken root)
          (jsReplaceAll remapNoSuffix configDirToken "")]
      else
        nodeResolve cwd [nodeJoin (jsReplaceAll b configDirToken root)
          (jsReplaceAll remapNoSuffix configDirToken root)]
    else
      nodeResolve cwd [nodeJoin root (jsReplaceAll remapNoSuffix configDirToken "")]
  | none =>
    nodeResolve cwd [nodeJoin root (jsReplaceAll remapNoSuffix configDirToken "")]

/-- The body of variant 2's `resolveAliases` inner loop for one
`(pattern, remaps)` entry.  `const [remapWithGreaterPriority] = remaps` on
an empty array yields `undefined`, and the immediately following
`remapWithGreaterPriority.endsWith(...)` then throws a `TypeError` — hence
the `Except`.  A falsy stripped target or pattern skips the entry. -/
def compileEntry (cwd root : String) (baseUrl : Option String)
    (pattern : String) (remaps : List String) :
    Except JsError (Option ResolvedAlias) :=
  match remaps with
  | [] => .error .typeError
  | remapWithGreaterPriority :: _ =>
    match tryExtractFindPatternFromTsAlias remapWithGreaterPriority with
    | none => .ok none
    | some remapNoSuffix =>
      if remapNoSuffix = "" then .ok none
      else
        match tryExtractFindPatternFromTsAlias pattern with
        | none => .ok none
        | some findPattern =>
          if findPattern = "" then .ok none
          else .ok (some { find := findPattern
                           replacement := aliasReplacement cwd root baseUrl remapNoSuffix })

/-- The inner entries loop of variant 2's `resolveAliases`. -/
def compileEntries (cwd root : String) (baseUrl : Option String) :
    List (String × List String) → Except JsError (List ResolvedAlias)
  | [] => .ok []
  | (pattern, remaps) :: rest =>
    match compileEntry cwd root baseUrl pattern remaps with
    | .error e => .error e
    | .ok none => compileEntries cwd root baseUrl rest
    | .ok (some r) =>
      match compileEntries cwd root baseUrl rest with
      | .error e => .error e
      | .ok tail => .ok (r :: tail)

/-- Embedding of variant 2's `resolveAliases`. -/
def resolveAliases (cwd root : String) :
    List UnresolvedAlias → Except JsError (List ResolvedAlias)
  | [] => .ok []
  | ua :: rest =>
    match compileEntries cwd root ua.baseUrl ua.paths with
    | .error e => .error e
    | .ok head =>
      match resolveAliases cwd root rest with
      | .error e => .error e
      | .ok tail => .ok (head ++ tail)

end Variant2

/-! ## Resolution hook (`resolveId`, identical in both variants) -/

/-- Embedding of the `resolveId` hook (identical in both variants): walk
the compiled rules in order; when `new RegExp(find).test(source)` holds,
ask the host to resolve `source.replace(find, replacement)` and return its
answer on success, otherwise fall through to the next rule; decline
(`none`) when the rules are exhausted.  The source builds
`new RegExp(find)` from the find string; for find strings free of regex
metacharacters (every string a `/*`-stripped tsconfig pattern produces in
practice) that test is exactly "occurs as a substring", which is what
`strContains` implements; the rewrite uses JavaScript's *string*
`replace`, i.e. first-literal-occurrence. -/
def resolveId (host : String → Option String) :
    List ResolvedAlias → String → Option String
  | [], _ => none
  | r :: rest, source =>
    if strContains source r.find then
      match host (replaceFirst source r.find r.replacement) with
      | some id => some id
      | none => resolveId host rest source
    else
      resolveId host rest source

/-! ## Recursive config discovery filter (variant 2's `configResolved`) -/

/-- The candidate filter of variant 2's `configResolved`: a discovered
tsconfig path is kept unless a `vite.config.{js,ts}` glob in
`dirname(dirname(tsConfigPath))` matches and the tsconfig's directory is
not the root.  `hasViteConfig d` models
`fg.sync(resolve(d, 'vite.config.\x7bjs,ts\x7d')).length > 0`, i.e. "directory
`d` directly hosts a vite config file". -/
def keepTsConfigCandidate (hasViteConfig : String → Bool)
    (root tsConfigPath : String) : Bool :=
  let tsConfigDir := nodeDirname tsConfigPath
  if hasViteConfig (nodeDirname tsConfigDir) && tsConfigDir ≠ root then false
  else true

/-! ## Occurrence lemmas

`Occurs t l` states that the character list `t` occurs contiguously inside
`l`; it is the Prop-level meaning of the Bool searches above and the
backbone of the placeholder-substitution theorems. -/

/-- `t` occurs contiguously inside `l`. -/
def Occurs (t l : List Char) : Prop := ∃ s e, s ++ t ++ e = l

theorem isPrefixOf_iff {t l : List Char} :
    t.isPrefixOf l = true ↔ ∃ e, t ++ e = l := by
  induction t generalizing l with
  | nil => simp [List.isPrefixOf]
  | cons a t ih =>
    cases l with
    | nil => simp [List.isPrefixOf]
    | cons b l =>
      simp only [List.isPrefixOf, Bool.and_eq_true, beq_iff_eq, ih]
      constructor
      · rintro ⟨rfl, e, rfl⟩
        exact ⟨e, rfl⟩
      · rintro ⟨e, h⟩
        injection h with h1 h2
        exact ⟨h1, e, h2⟩

theorem findSubAux_some_occurs {t l : List Char} {i j : Nat}
    (h : findSubAux t l i = some j) : Occurs t l := by
  induction l generalizing i with
  | nil =>
    simp only [findSubAux] at h
    split at h
    · rename_i hp
      rcases isPrefixOf_iff.mp hp with ⟨e, he⟩
      exact ⟨[], e, by simpa using he⟩
    · exact absurd h (by simp)
  | cons c tl ih =>
    simp only [findSubAux] at h
    split at h
    · rename_i hp
      rcases isPrefixOf_iff.mp hp with ⟨e, he⟩
      exact ⟨[], e, by simpa using he⟩
    · rcases ih h with ⟨s, e, rfl⟩
      exact ⟨c :: s, e, rfl⟩

theorem findSubAux_isSome_of_pre {t l : List Char} (i : Nat)
    (hp : t.isPrefixOf l = true) : (findSubAux t l i).isSome = true := by
  cases l <;> simp_all [findSubAux]

theorem occurs_findSubAux_isSome {t l : List Char} (h : Occurs t l) (i : Nat) :
    (findSubAux t l i).isSome = true := by
  rcases h with ⟨s, e, rfl⟩
  induction s generalizing i with
  | nil => exact findSubAux_isSome_of_pre i (isPrefixOf_iff.mpr ⟨e, by simp⟩)
  | cons c s ih =>
    simp only [List.cons_append, findSubAux]
    split
    · simp
    · exact ih (i + 1)

theorem occurs_iff_findSubAux {t l : List Char} :
    Occurs t l ↔ (findSubAux t l 0).isSome = true := by
  constructor
  · exact fun h => occurs_findSubAux_isSome h 0
  · intro h
    cases hf : findSubAux t l 0 with
    | none => rw [hf] at h; simp at h
    | some j => exact findSubAux_some_occurs hf

theorem occurs_of_pre {t l : List Char} (h : ∃ e, t ++ e = l) : Occurs t l := by
  rcases h with ⟨e, rfl⟩
  exact ⟨[], e, rfl⟩

theorem occurs_cons_of {t l : List Char} (c : Char) (h : Occurs t l) :
    Occurs t (c :: l) := by
  rcases h with ⟨s, e, rfl⟩
  exact ⟨c :: s, e, rfl⟩

theorem occurs_trans {t p l : List Char} (hp : Occurs p l) (ht : Occurs t p) :
    Occurs t l := by
  rcases hp with ⟨s1, e1, rfl⟩
  rcases ht with ⟨s2, e2, rfl⟩
  exact ⟨s1 ++ s2, e2 ++ e1, by simp⟩

theorem occurs_append_left {t a : List Char} (b : List Char) (h : Occurs t a) :
    Occurs t (a ++ b) := by
  rcases h with ⟨s, e, rfl⟩
  exact ⟨s, e ++ b, by simp⟩

theorem occurs_append_right {t b : List Char} (a : List Char) (h : Occurs t b) :
    Occurs t (a ++ b) := by
  rcases h with ⟨s, e, rfl⟩
  exact ⟨a ++ s, e, by simp⟩

theorem occurs_cons_elim {t l : List Char} {c : Char} (h : Occurs t (c :: l)) :
    (∃ e, t ++ e = c :: l) ∨ Occurs t l := by
  rcases h with ⟨s, e, hse⟩
  cases s with
  | nil => exact Or.inl ⟨e, by simpa using hse⟩
  | cons s0 s1 =>
    injection hse with h1 h2
    exact Or.inr ⟨s1, e, h2⟩

theorem pre_through_append {t a b : List Char} {c : Char}
    (h : ∃ e, t ++ e = a ++ c :: b) (hc : c ∉ t) : ∃ e, t ++ e = a := by
  induction a generalizing t with
  | nil =>
    rcases h with ⟨e, he⟩
    cases t with
    | nil => exact ⟨[], rfl⟩
    | cons t0 t1 =>
      injection he with h1 h2
      exact absurd (h1 ▸ List.mem_cons_self t0 t1) hc
  | cons x a ih =>
    rcases h with ⟨e, he⟩
    cases t with
    | nil => exact ⟨x :: a, rfl⟩
    | cons t0 t1 =>
      injection he with h1 h2
      have hc1 : c ∉ t1 := fun hm => hc (List.mem_cons_of_mem t0 hm)
      rcases ih ⟨e, h2⟩ hc1 with ⟨e1, he1⟩
      exact ⟨e1, by rw [h1, List.cons_append, he1]⟩

theorem occurs_append_char {t a b : List Char} {c : Char} (hc : c ∉ t)
    (h : Occurs t (a ++ c :: b)) : Occurs t a ∨ Occurs t b := by
  induction a with
  | nil =>
    rcases occurs_cons_elim (by simpa using h) with hpre | hb
    · rcases pre_through_append (a := []) hpre hc with ⟨e, he⟩
      exact Or.inl (occurs_of_pre ⟨e, he⟩)
    · exact Or.inr hb
  | cons x a ih =>
    rcases occurs_cons_elim (by simpa using h) with hpre | hrest
    · rcases pre_through_append (a := x :: a) (by simpa using hpre) hc with ⟨e, he⟩
      exact Or.inl (occurs_of_pre ⟨e, he⟩)
    · rcases ih (by simpa using hrest) with ha | hb
      · exact Or.inl (occurs_cons_of x ha)
      · exact Or.inr hb

/-! ## Token-freedom and its preservation by the path model -/

/-- The string `s` does not contain the configDir placeholder token. -/
def NoTok (s : String) : Prop := ¬ Occurs configDirToken.toList s.toList

theorem noTok_iff_containsToken {s : String} :
    NoTok s ↔ containsToken s = false := by
  unfold NoTok containsToken strContains
  rw [occurs_iff_findSubAux]
  cases (findSubAux configDirToken.toList s.toList 0).isSome <;> simp

theorem tok_ne_nil : configDirToken.toList ≠ [] := by decide

theorem tok_no_slash : '/' ∉ configDirToken.toList := by decide

theorem not_occurs_concrete {l : List Char}
    (h : (findSubAux configDirToken.toList l 0).isSome = false) :
    ¬ Occurs configDirToken.toList l := by
  rw [occurs_iff_findSubAux, h]
  simp

theorem splitSlash_head_pre :
    ∀ l : List Char, ∃ h rest, splitSlash l = h :: rest ∧ ∃ e, h ++ e = l := by
  intro l
  induction l with
  | nil => exact ⟨[], [], rfl, [], rfl⟩
  | cons c r ih =>
    rcases ih with ⟨h, rest, hsplit, e, hpre⟩
    by_cases hc : c = '/'
    · subst hc
      exact ⟨[], splitSlash r, by simp [splitSlash], '/' :: r, rfl⟩
    · refine ⟨c :: h, rest, ?_, e, by rw [List.cons_append, hpre]⟩
      simp only [splitSlash, if_neg hc, hsplit]

theorem mem_splitSlash_occurs {p l : List Char} (h : p ∈ splitSlash l) :
    Occurs p l := by
  induction l with
  | nil =>
    simp only [splitSlash, List.mem_singleton] at h
    exact ⟨[], [], by simp [h]⟩
  | cons c r ih =>
    by_cases hc : c = '/'
    · subst hc
      simp [splitSlash] at h
      rcases h with h1 | h2
      · exact ⟨[], '/' :: r, by simp [h1]⟩
      · exact occurs_cons_of '/' (ih h2)
    · rcases splitSlash_head_pre r with ⟨h0, rest, hsplit, e, hpre⟩
      simp only [splitSlash, if_neg hc, hsplit, List.mem_cons] at h
      rcases h with rfl | h
      · exact occurs_of_pre ⟨e, by rw [List.cons_append, hpre]⟩
      · exact occurs_cons_of c (ih (hsplit ▸ List.mem_cons_of_mem h0 h))

theorem normStack_mem {abs : Bool} {x : List Char} :
    ∀ {segs stack : List (List Char)}, x ∈ normStack abs stack segs →
      x ∈ stack ∨ x ∈ segs ∨ x = dotdot := by
  intro segs
  induction segs with
  | nil =>
    intro stack h
    simp only [normStack, List.mem_reverse] at h
    exact Or.inl h
  | cons seg rest ih =>
    intro stack h
    simp only [normStack] at h
    by_cases h1 : seg = [] ∨ seg = ['.']
    · rw [if_pos h1] at h
      rcases ih h with hs | hr | hd
      · exact Or.inl hs
      · exact Or.inr (Or.inl (List.mem_cons_of_mem seg hr))
      · exact Or.inr (Or.inr hd)
    · rw [if_neg h1] at h
      by_cases h2 : seg = dotdot
      · rw [if_pos h2] at h
        cases stack with
        | nil =>
          rcases ih h with hs | hr | hd
          · cases abs with
            | true => simp at hs
            | false =>
              simp only [Bool.false_eq_true, if_false, List.mem_singleton] at hs
              exact Or.inr (Or.inr hs)
          · exact Or.inr (Or.inl (List.mem_cons_of_mem seg hr))
          · exact Or.inr (Or.inr hd)
        | cons top stk =>
          dsimp only at h
          by_cases h3 : top = dotdot
          · rw [if_pos h3] at h
            rcases ih h with hs | hr | hd
            · rcases List.mem_cons.mp hs with rfl | hs2
              · exact Or.inr (Or.inr h2)
              · exact Or.inl hs2
            · exact Or.inr (Or.inl (List.mem_cons_of_mem seg hr))
            · exact Or.inr (Or.inr hd)
          · rw [if_neg h3] at h
            rcases ih h with hs | hr | hd
            · exact Or.inl (List.mem_cons_of_mem top hs)
            · exact Or.inr (Or.inl (List.mem_cons_of_mem seg hr))
            · exact Or.inr (Or.inr hd)
      · rw [if_neg h2] at h
        rcases ih h with hs | hr | hd
        · rcases List.mem_cons.mp hs with rfl | hs2
          · exact Or.inr (Or.inl (List.mem_cons_self x rest))
          · exact Or.inl hs2
        · exact Or.inr (Or.inl (List.mem_cons_of_mem seg hr))
        · exact Or.inr (Or.inr hd)

theorem joinSlash_no_occurs {t : List Char} (htn : t ≠ [])
    (hts : '/' ∉ t) :
    ∀ {ps : List (List Char)}, (∀ p ∈ ps, ¬ Occurs t p) →
      ¬ Occurs t (joinSlash ps) := by
  intro ps
  induction ps with
  | nil =>
    intro _ h
    rcases h with ⟨s, e, hse⟩
    exact htn (List.append_eq_nil.mp (List.append_eq_nil.mp hse).1).2
  | cons p rest ih =>
    intro hall h
    cases rest with
    | nil => exact hall p (List.mem_cons_self p []) (by simpa [joinSlash] using h)
    | cons q rest2 =>
      have hj : joinSlash (p :: q :: rest2) = p ++ '/' :: joinSlash (q :: rest2) := rfl
      rw [hj] at h
      rcases occurs_append_char hts h with hp | hrest
      · exact hall p (List.mem_cons_self p (q :: rest2)) hp
      · exact ih (fun x hx => hall x (List.mem_cons_of_mem p hx)) hrest

theorem toList_asString (l : List Char) : (List.asString l).toList = l := rfl

theorem toList_append (a b : String) :
    (a ++ b).toList = a.toList ++ b.toList := by
  cases a; cases b; rfl

theorem noTok_nodeNormalize {s : String} (h : NoTok s) :
    NoTok (nodeNormalize s) := by
  have hpieces : ∀ p ∈ normStack (strStartsWith s "/") [] (splitSlash s.toList),
      ¬ Occurs configDirToken.toList p := by
    intro p hp
    rcases normStack_mem hp with hstack | hsegs | hdot
    · simp at hstack
    · exact fun hocc => h (occurs_trans (mem_splitSlash_occurs hsegs) hocc)
    · subst hdot
      exact not_occurs_concrete (by decide)
  have hcore : ¬ Occurs configDirToken.toList
      (joinSlash (normStack (strStartsWith s "/") [] (splitSlash s.toList))) :=
    joinSlash_no_occurs tok_ne_nil tok_no_slash hpieces
  unfold NoTok nodeNormalize
  by_cases habs : strStartsWith s "/" = true
  · rw [if_pos habs]
    rw [toList_asString]
    intro hocc
    rcases occurs_cons_elim hocc with ⟨e, he⟩ | hcore2
    · cases ht : configDirToken.toList with
      | nil => exact tok_ne_nil ht
      | cons t0 t1 =>
        rw [ht] at he
        injection he with h1 h2
        exact tok_no_slash (ht ▸ (h1 ▸ List.mem_cons_self t0 t1))
    · exact hcore (by simpa [habs] using hcore2)
  · rw [if_neg habs]
    by_cases hcz : joinSlash (normStack (strStartsWith s "/") [] (splitSlash s.toList)) = []
    · simp only [Bool.not_eq_true] at habs
      rw [habs] at hcz
      rw [habs, hcz]
      simp only [if_pos rfl]
      exact not_occurs_concrete (by decide)
    · simp only [Bool.not_eq_true] at habs
      rw [habs] at hcz ⊢
      rw [if_neg hcz, toList_asString]
      exact fun hocc => hcore (by simpa [habs] using hocc)

theorem noTok_append_slash {a b : String} (ha : NoTok a) (hb : NoTok b) :
    NoTok (a ++ "/" ++ b) := by
  unfold NoTok
  rw [toList_append, toList_append]
  intro hocc
  have : (("/" : String).toList : List Char) = ['/'] := rfl
  rw [this] at hocc
  have hocc2 : Occurs configDirToken.toList (a.toList ++ '/' :: b.toList) := by
    simpa using hocc
  rcases occurs_append_char tok_no_slash hocc2 with h1 | h2
  · exact ha h1
  · exact hb h2

theorem noTok_nodeResolve {cwd : String} {parts : List String}
    (hcwd : NoTok cwd) (hparts : ∀ p ∈ parts, NoTok p) :
    NoTok (nodeResolve cwd parts) := by
  unfold nodeResolve
  apply noTok_nodeNormalize
  induction parts generalizing cwd with
  | nil => exact hcwd
  | cons p rest ih =>
    simp only [List.foldl_cons]
    apply ih
    · by_cases h1 : p = ""
      · rw [if_pos h1]; exact hcwd
      · rw [if_neg h1]
        by_cases h2 : strStartsWith p "/" = true
        · rw [if_pos h2]; exact hparts p (List.mem_cons_self p rest)
        · rw [if_neg h2]
          exact noTok_append_slash hcwd (hparts p (List.mem_cons_self p rest))
    · exact fun q hq => hparts q (List.mem_cons_of_mem p hq)

theorem noTok_nodeJoin {a b : String} (ha : NoTok a) (hb : NoTok b) :
    NoTok (nodeJoin a b) := by
  unfold nodeJoin
  apply noTok_nodeNormalize
  by_cases h1 : a = ""
  · rw [if_pos h1]; exact hb
  · rw [if_neg h1]
    by_cases h2 : b = ""
    · rw [if_pos h2]; exact ha
    · rw [if_neg h2]; exact noTok_append_slash ha hb

theorem asString_toList (s : String) : (s.toList).asString = s := by
  cases s
  rfl

theorem occurs_drop {t l : List Char} {i : Nat} (h : Occurs t (l.drop i)) :
    Occurs t l := by
  rcases h with ⟨s, e, hse⟩
  exact ⟨l.take i ++ s, e, by rw [List.append_assoc, List.append_assoc, ← List.append_assoc s,
    hse, List.take_append_drop]⟩

theorem regexTestFrom_of_noTok {s : String} (h : NoTok s) (i : Nat) :
    regexTestFrom s i = (false, 0) := by
  cases hf : findSubAux configDirToken.toList (s.toList.drop i) i with
  | some j => exact absurd (occurs_drop (findSubAux_some_occurs hf)) h
  | none =>
    unfold regexTestFrom
    rw [hf]

theorem replaceAllFuel_no_occurs {pat rep : List Char} :
    ∀ (fuel : Nat) (l : List Char), ¬ Occurs pat l →
      replaceAllFuel pat rep fuel l = l := by
  intro fuel
  induction fuel with
  | zero => intro l _; rfl
  | succ n ih =>
    intro l h
    cases l with
    | nil => rfl
    | cons c rest =>
      have hnp : ¬ (pat ≠ [] ∧ pat.isPrefixOf (c :: rest) = true) := by
        rintro ⟨-, hp⟩
        exact h (occurs_of_pre (isPrefixOf_iff.mp hp))
      simp only [replaceAllFuel, if_neg hnp]
      rw [ih rest (fun ho => h (occurs_cons_of c ho))]

theorem jsReplaceAll_no_occurs {s pat : String} (rep : String)
    (h : ¬ Occurs pat.toList s.toList) : jsReplaceAll s pat rep = s := by
  unfold jsReplaceAll
  rw [replaceAllFuel_no_occurs _ _ h, asString_toList]

theorem nodeNormalize_ne_empty (s : String) : nodeNormalize s ≠ "" := by
  unfold nodeNormalize
  by_cases habs : strStartsWith s "/" = true
  · rw [if_pos habs]
    intro h
    have := congrArg String.toList h
    rw [toList_asString] at this
    cases this
  · rw [if_neg habs]
    by_cases hcz : joinSlash (normStack (strStartsWith s "/") [] (splitSlash s.toList)) = []
    · rw [if_pos hcz]
      intro h
      cases congrArg String.toList h
    · rw [if_neg hcz]
      intro h
      have := congrArg String.toList h
      rw [toList_asString] at this
      exact hcz this

theorem nodeResolve_ne_empty (cwd : String) (parts : List String) :
    nodeResolve cwd parts ≠ "" :=
  nodeNormalize_ne_empty _

theorem head_filter_mem {α : Type} {p : α → Bool} :
    ∀ {l : List α} {x : α} {t : List α}, l.filter p = x :: t → x ∈ l := by
  intro l
  induction l with
  | nil => intro x t h; simp at h
  | cons a rest ih =>
    intro x t h
    by_cases hp : p a = true
    · rw [List.filter_cons_of_pos hp] at h
      injection h with h1 _
      exact h1 ▸ List.mem_cons_self a rest
    · rw [List.filter_cons_of_neg (by simpa using hp)] at h
      exact List.mem_cons_of_mem a (ih h)

theorem filter_head_of_first {α : Type} (p : α → Bool) :
    ∀ (l : List α) (i : Nat) (hi : i < l.length),
      p (l.get ⟨i, hi⟩) = true →
      (∀ j (hj : j < l.length), j < i → p (l.get ⟨j, hj⟩) = false) →
      ∃ t, l.filter p = l.get ⟨i, hi⟩ :: t := by
  intro l
  induction l with
  | nil => intro i hi; simp at hi
  | cons a rest ih =>
    intro i hi hp hprev
    cases i with
    | zero =>
      refine ⟨rest.filter p, ?_⟩
      exact List.filter_cons_of_pos hp
    | succ n =>
      have ha : p a = false := hprev 0 (by simp) (Nat.succ_pos n)
      have hn : n < rest.length := Nat.lt_of_succ_lt_succ hi
      rcases ih n hn hp
          (fun j hj hji => hprev (j + 1) (Nat.succ_lt_succ hj) (Nat.succ_lt_succ hji)) with ⟨t, ht⟩
      exact ⟨t, by rw [List.filter_cons_of_neg (by simpa using ha), ht]; rfl⟩

theorem filter_eq_nil_of_all {α : Type} {p : α → Bool} :
    ∀ {l : List α}, (∀ x ∈ l, p x = false) → l.filter p = [] := by
  intro l
  induction l with
  | nil => intro _; rfl
  | cons a rest ih =>
    intro h
    rw [List.filter_cons_of_neg (by simpa using h a (List.mem_cons_self a rest))]
    exact ih (fun x hx => h x (List.mem_cons_of_mem a hx))

theorem removeSuffix_of_no_suffix {p : String}
    (h : strEndsWith p "/*" = false) :
    Variant1.removeSuffixPatternFromTsAlias p = p := by
  unfold Variant1.removeSuffixPatternFromTsAlias
  rw [show Variant1.tsAliasSuffix = "/*" from rfl, if_neg (by simp [h])]

theorem tryExtract_of_no_suffix {p : String}
    (h : strEndsWith p "/*" = false) :
    Variant2.tryExtractFindPatternFromTsAlias p = none := by
  unfold Variant2.tryExtractFindPatternFromTsAlias
  rw [show Variant1.tsAliasSuffix = "/*" from rfl, if_neg (by simp [h])]

theorem tryExtract_eq_some {m x : String}
    (h : Variant2.tryExtractFindPatternFromTsAlias m = some x) :
    x = strDropRight m 2 ∧ strEndsWith m "/*" = true := by
  unfold Variant2.tryExtractFindPatternFromTsAlias at h
  by_cases he : strEndsWith m Variant1.tsAliasSuffix = true
  · rw [if_pos he] at h
    injection h with h1
    exact ⟨h1.symm, he⟩
  · rw [if_neg he] at h
    cases h

/-! ## Claims -/

/-- C1 counterexample: in the existence-checking variant a pattern that
does *not* end with the wildcard suffix `/*` still produces a compiled
rule — `removeSuffixPatternFromTsAlias` returns it unchanged and only an
*empty* stripped pattern is skipped.  Here the entry
`"foo" ↦ ["src/*"]` (under root `/r`, every directory existing) compiles
to the rule `⟨"foo", "/r/src"⟩`, so its rule count is 1, not 0. -/
theorem c1_counterexample :
    strEndsWith "foo" "/*" = false ∧
    Variant1.resolveAliases "/cwd" (fun _ => true) "/r"
        [{ baseUrl := none, paths := [("foo", ["src/*"])] }] =
      [{ find := "foo", replacement := "/r/src" }] := by
  constructor
  · decide
  · rfl

/-- C1 (amended): a pattern without the wildcard suffix never produces a
compiled rule in the always-first-priority variant
(`tryExtractFindPatternFromTsAlias` returns `undefined` for it); in the
existence-checking variant only a pattern whose suffix-stripped form is
empty is skipped — a pattern lacking the suffix is used *verbatim* as the
`find` of any rule the entry produces. -/
theorem c1_amended :
    (∀ cwd root baseUrl pattern remaps o,
        strEndsWith pattern "/*" = false →
        Variant2.compileEntry cwd root baseUrl pattern remaps = .ok o →
        o = none) ∧
    (∀ cwd dirExists root baseUrl remaps,
        Variant1.compileEntry cwd dirExists root baseUrl "" remaps = none) ∧
    (∀ cwd dirExists root baseUrl pattern remaps r,
        strEndsWith pattern "/*" = false →
        Variant1.compileEntry cwd dirExists root baseUrl pattern remaps = some r →
        r.find = pattern) := by
  refine ⟨?_, ?_, ?_⟩
  · intro cwd root baseUrl pattern remaps o hend h
    cases remaps with
    | nil => simp [Variant2.compileEntry] at h
    | cons m0 rest =>
      cases h0 : Variant2.tryExtractFindPatternFromTsAlias m0 with
      | none =>
        simp only [Variant2.compileEntry, h0] at h
        injection h with h1
        exact h1.symm
      | some rn =>
        by_cases h1 : rn = ""
        · simp only [Variant2.compileEntry, h0, if_pos h1] at h
          injection h with h2
          exact h2.symm
        · simp only [Variant2.compileEntry, h0, if_neg h1,
            tryExtract_of_no_suffix hend] at h
          injection h with h2
          exact h2.symm
  · intro cwd dirExists root baseUrl remaps
    rfl
  · intro cwd dirExists root baseUrl pattern remaps r hend h
    unfold Variant1.compileEntry at h
    rw [removeSuffix_of_no_suffix hend] at h
    by_cases hp : pattern = ""
    · rw [if_pos hp] at h
      cases h
    · rw [if_neg hp] at h
      cases hf : (Variant1.resolveMaps cwd
          (Variant1.effectiveBaseUrl root baseUrl) remaps).filter dirExists with
      | nil => rw [hf] at h; cases h
      | cons map tail =>
        rw [hf] at h
        dsimp only at h
        by_cases hm : map = ""
        · rw [if_pos hm] at h; cases h
        · rw [if_neg hm] at h
          injection h with h1
          rw [← h1]

theorem c1_amended_witness :
    strEndsWith "foo" "/*" = false ∧
    ResolvedAlias.find { find := "foo", replacement := "/r/src" } = "foo" :=
  ⟨by decide,
    c1_amended.2.2 "/cwd" (fun _ => true) "/r" none "foo" ["src/*"]
      { find := "foo", replacement := "/r/src" } (by decide) (by rfl)⟩

/-- C5: first-match-wins.  With two compiled rules `A` then `B` carrying
the same `find`, a specifier matching that find resolves through `A`'s
replacement whenever the host can resolve `A`'s rewritten specifier: the
hook returns the host's answer for `A`'s rewrite and `B` is never
consulted. -/
theorem c5_first_match_wins (host : String → Option String)
    (A B : ResolvedAlias) (rest : List ResolvedAlias) (source rid : String)
    (_hfind : B.find = A.find)
    (hmatch : strContains source A.find = true)
    (hhost : host (replaceFirst source A.find A.replacement) = some rid) :
    resolveId host (A :: B :: rest) source = some rid := by
  unfold resolveId
  rw [hmatch, hhost]
  rfl

theorem c5_witness :
    resolveId (fun s => if s = "/r/app/x" then some "/r/app/x.ts" else none)
      [{ find := "@app", replacement := "/r/app" },
       { find := "@app", replacement := "/r/other" }] "@app/x" =
      some "/r/app/x.ts" :=
  c5_first_match_wins _ _ _ _ _ _ rfl (by decide) (by decide)

/-- C8: error recovery in the hook.  An empty rule list declines; a
matching rule whose rewritten specifier the host cannot resolve falls
through to the remaining rules, as does a non-matching rule; and when
every rule either fails to match or has its rewrite unresolved by the
host, the hook returns `none` so the host's own resolution of the
original specifier proceeds. -/
theorem c8_hook_fallthrough (host : String → Option String) :
    (∀ source, resolveId host [] source = none) ∧
    (∀ r rest source, strContains source r.find = true →
      host (replaceFirst source r.find r.replacement) = none →
      resolveId host (r :: rest) source = resolveId host rest source) ∧
    (∀ r rest source, strContains source r.find = false →
      resolveId host (r :: rest) source = resolveId host rest source) ∧
    (∀ rules source,
      (∀ r ∈ rules, strContains source r.find = true →
        host (replaceFirst source r.find r.replacement) = none) →
      resolveId host rules source = none) := by
  refine ⟨fun _ => rfl, ?_, ?_, ?_⟩
  · intro r rest source hmatch hhost
    simp only [resolveId, hmatch, hhost, if_true]
  · intro r rest source hmatch
    simp only [resolveId, hmatch, Bool.false_eq_true, if_false]
  · intro rules source hall
    induction rules with
    | nil => rfl
    | cons r rest ih =>
      unfold resolveId
      have ihr := ih (fun x hx => hall x (List.mem_cons_of_mem r hx))
      by_cases hm : strContains source r.find = true
      · rw [hm, hall r (List.mem_cons_self r rest) hm, ihr]
        rfl
      · rw [Bool.not_eq_true] at hm
        rw [hm, ihr]
        rfl

theorem c8_witness :
    resolveId (fun _ => none) [{ find := "@a", replacement := "/x" }] "lodash" =
      none :=
  (c8_hook_fallthrough (fun _ => none)).2.2.2
    [{ find := "@a", replacement := "/x" }] "lodash" (fun _ _ _ => rfl)

/-- C10: the hook's matcher is `new RegExp(find).test(source)` — an
*unanchored* search (modelled for metacharacter-free finds as substring
containment), not an anchored-prefix test — and the rewrite is
JavaScript's string `replace`, which substitutes the *first literal
occurrence* of the find.  So every anchored prefix match still matches;
the specifier `x@app/y` matches the find `@app` even though `@app` is not
its prefix; and the rule `⟨"@app", R⟩` rewrites `x@app/y` at the interior
occurrence, delegating `x` ++ `R` ++ `/y` to the host. -/
theorem c10_regex_interior_match :
    (∀ f source, strStartsWith source f = true → strContains source f = true) ∧
    (strContains "x@app/y" "@app" = true ∧
      strStartsWith "x@app/y" "@app" = false) ∧
    (∀ host : String → Option String,
      resolveId host [{ find := "@app", replacement := "/r/app" }] "x@app/y" =
        host "x/r/app/y") := by
  refine ⟨?_, by decide, ?_⟩
  · intro f source h
    unfold strContains
    rcases isPrefixOf_iff.mp h with ⟨e, he⟩
    exact occurs_findSubAux_isSome (occurs_of_pre ⟨e, he⟩) 0
  · intro host
    have h1 : strContains "x@app/y" "@app" = true := by decide
    have h2 : replaceFirst "x@app/y" "@app" "/r/app" = "x/r/app/y" := by decide
    unfold resolveId
    rw [h1, h2]
    cases host "x/r/app/y" <;> rfl

theorem c10_witness : strContains "abc/d" "abc" = true :=
  c10_regex_interior_match.1 "abc" "abc/d" (by decide)

/-- C6 (evaluating the code at the failing input): the recursive-discovery
filter globs for `vite.config.{js,ts}` in `dirname(dirname(tsConfigPath))`
— the *parent* of the candidate's directory — so with root `/r` and a vite
config hosted exactly in `/r/packages/app`, the candidate
`/r/packages/app/tsconfig.json` is *kept* (the filter returns `true`),
even though its own directory hosts a vite config and is not the root;
the exclusion only fires when the vite config sits one directory above
the candidate, as the second conjunct shows. -/
theorem c6_nested_vite_discovery_eval :
    keepTsConfigCandidate (fun d => d == "/r/packages/app") "/r"
        "/r/packages/app/tsconfig.json" = true ∧
    (fun d => d == "/r/packages/app") (nodeDirname "/r/packages/app/tsconfig.json") = true ∧
    keepTsConfigCandidate (fun d => d == "/r/packages") "/r"
        "/r/packages/app/tsconfig.json" = false := by
  decide

theorem resolveTsConfigPath_missing (cwd : String) (fs : FsFiles) (p : String)
    (h : fs (nodeResolve cwd [nodeResolve cwd [p]]) = none) :
    resolveTsConfigPath cwd fs p = .ok none := by
  simp only [resolveTsConfigPath]
  rw [h]
  rfl

theorem resolveTsConfigPath_malformed (cwd : String) (fs : FsFiles) (p : String)
    (x : FileContent)
    (hex : fs (nodeResolve cwd [nodeResolve cwd [p]]) = some x)
    (hmal : fs (nodeResolve cwd [p]) = some .malformed) :
    resolveTsConfigPath cwd fs p = .error .parseError := by
  simp only [resolveTsConfigPath]
  rw [hex, hmal]
  rfl

/-- C7: the config reader treats a missing file as "no contribution"
(`.ok none`, no error), but throws on an existing file whose contents do
not parse; and that thrown error propagates out of the inheritance
walker, so the configuration-resolve phase aborts with no alias sets (and
hence no rules) produced from that root config. -/
theorem c7_config_reader_errors :
    (∀ cwd fs p, fs (nodeResolve cwd [nodeResolve cwd [p]]) = none →
      resolveTsConfigPath cwd fs p = .ok none) ∧
    (∀ cwd fs p x, fs (nodeResolve cwd [nodeResolve cwd [p]]) = some x →
      fs (nodeResolve cwd [p]) = some .malformed →
      resolveTsConfigPath cwd fs p = .error .parseError) ∧
    (∀ cwd fs root tsConfigPath st x,
      fs (nodeResolve cwd [nodeResolve cwd [tsConfigPath]]) = some x →
      fs (nodeResolve cwd [tsConfigPath]) = some .malformed →
      getRecursivePathsFromTsConfig cwd fs root tsConfigPath st =
        .error .parseError) := by
  refine ⟨resolveTsConfigPath_missing, resolveTsConfigPath_malformed, ?_⟩
  intro cwd fs root tsConfigPath st x hex hmal
  unfold getRecursivePathsFromTsConfig
  rw [resolveTsConfigPath_malformed cwd fs tsConfigPath x hex hmal]

theorem c7_witness :
    resolveTsConfigPath "/cwd" (fun _ => none) "tsconfig.json" = .ok none ∧
    resolveTsConfigPath "/cwd" (fun _ => some .malformed) "tsconfig.json" =
      .error .parseError ∧
    getRecursivePathsFromTsConfig "/cwd" (fun _ => some .malformed) "/r"
      "tsconfig.json" 0 = .error .parseError :=
  ⟨c7_config_reader_errors.1 "/cwd" (fun _ => none) "tsconfig.json" rfl,
   c7_config_reader_errors.2.1 "/cwd" (fun _ => some .malformed) "tsconfig.json"
     .malformed rfl rfl,
   c7_config_reader_errors.2.2 "/cwd" (fun _ => some .malformed) "/r"
     "tsconfig.json" 0 .malformed rfl rfl⟩

theorem compileEntry2_ok_of_ne_nil (cwd root : String) (baseUrl : Option String)
    (pattern : String) (remaps : List String) (h : remaps ≠ []) :
    ∃ o, Variant2.compileEntry cwd root baseUrl pattern remaps = .ok o := by
  cases remaps with
  | nil => exact absurd rfl h
  | cons m0 rest =>
    cases h0 : Variant2.tryExtractFindPatternFromTsAlias m0 with
    | none => exact ⟨none, by simp [Variant2.compileEntry, h0]⟩
    | some rn =>
      by_cases h1 : rn = ""
      · exact ⟨none, by simp [Variant2.compileEntry, h0, h1]⟩
      · cases h2 : Variant2.tryExtractFindPatternFromTsAlias pattern with
        | none => exact ⟨none, by simp [Variant2.compileEntry, h0, h1, h2]⟩
        | some fp =>
          by_cases h3 : fp = ""
          · exact ⟨none, by simp [Variant2.compileEntry, h0, h1, h2, h3]⟩
          · exact ⟨some (ResolvedAlias.mk fp
                (Variant2.aliasReplacement cwd root baseUrl rn)),
              by simp [Variant2.compileEntry, h0, h1, h2, h3]⟩

theorem compileEntries2_ok (cwd root : String) (baseUrl : Option String)
    {entries : List (String × List String)}
    (h : ∀ e ∈ entries, e.2 ≠ []) :
    ∃ l, Variant2.compileEntries cwd root baseUrl entries = .ok l := by
  induction entries with
  | nil => exact ⟨[], rfl⟩
  | cons e rest ih =>
    obtain ⟨p, rs⟩ := e
    rcases compileEntry2_ok_of_ne_nil cwd root baseUrl p rs
        (h (p, rs) (List.mem_cons_self (p, rs) rest)) with ⟨o, ho⟩
    rcases ih (fun x hx => h x (List.mem_cons_of_mem (p, rs) hx)) with ⟨l, hl⟩
    cases o with
    | none => exact ⟨l, by simp [Variant2.compileEntries, ho, hl]⟩
    | some r => exact ⟨r :: l, by simp [Variant2.compileEntries, ho, hl]⟩

/-- C9: variant 2's `resolveAliases` never fails when every pattern's
target list is non-empty, because the only fallible step is reading the
first-listed target; but an alias set containing a pattern mapped to an
empty target array makes the call throw
(`remapWithGreaterPriority` is `undefined` and `.endsWith` on it is a
`TypeError`) instead of skipping the entry. -/
theorem c9_totality :
    (∀ cwd root aliases,
      (∀ ua ∈ aliases, ∀ e ∈ UnresolvedAlias.paths ua, e.2 ≠ []) →
      ∃ l, Variant2.resolveAliases cwd root aliases = .ok l) ∧
    Variant2.resolveAliases "/cwd" "/r"
        [{ baseUrl := none, paths := [("@a/*", [])] }] =
      .error .typeError := by
  constructor
  · intro cwd root aliases h
    induction aliases with
    | nil => exact ⟨[], rfl⟩
    | cons ua rest ih =>
      rcases compileEntries2_ok cwd root ua.baseUrl
          (h ua (List.mem_cons_self ua rest)) with ⟨hd, hhd⟩
      rcases ih (fun x hx => h x (List.mem_cons_of_mem ua hx)) with ⟨tl, htl⟩
      exact ⟨hd ++ tl, by simp [Variant2.resolveAliases, hhd, htl]⟩
  · rfl

theorem c9_witness :
    ∃ l, Variant2.resolveAliases "/cwd" "/r"
        [{ baseUrl := none, paths := [("@a/*", ["src/*"])] }] = .ok l :=
  c9_totality.1 "/cwd" "/r"
    [{ baseUrl := none, paths := [("@a/*", ["src/*"])] }] (by decide)

theorem list_get_map {α β : Type} (f : α → β) :
    ∀ (l : List α) (i : Nat) (hi : i < l.length) (hil : i < (l.map f).length),
      (l.map f).get ⟨i, hil⟩ = f (l.get ⟨i, hi⟩) := by
  intro l
  induction l with
  | nil => intro i hi hil; simp at hi
  | cons a rest ih =>
    intro i hi hil
    cases i with
    | zero => rfl
    | succ n =>
      exact ih n (Nat.lt_of_succ_lt_succ hi)
        (Nat.lt_of_succ_lt_succ (by simpa using hil))

theorem resolveMaps_get (cwd b : String) (l : List String) (i : Nat)
    (hi : i < l.length)
    (hil : i < (Variant1.resolveMaps cwd b l).length) :
    (Variant1.resolveMaps cwd b l).get ⟨i, hil⟩ =
      Variant1.resolveMap cwd b (l.get ⟨i, hi⟩) :=
  list_get_map _ l i hi hil

theorem resolveMap_ne_empty (cwd b m : String) :
    Variant1.resolveMap cwd b m ≠ "" := by
  unfold Variant1.resolveMap
  by_cases h : Variant1.removeSuffixPatternFromTsAlias m = "*"
  · rw [if_pos h]; exact nodeResolve_ne_empty _ _
  · rw [if_neg h]; exact nodeResolve_ne_empty _ _

theorem tryExtract_of_suffix {m : String} (h : strEndsWith m "/*" = true) :
    Variant2.tryExtractFindPatternFromTsAlias m = some (strDropRight m 2) := by
  unfold Variant2.tryExtractFindPatternFromTsAlias
  rw [show Variant1.tsAliasSuffix = "/*" from rfl, if_pos (by simp [h])]
  rfl

/-- C2: target-selection policy of the two variants.  In the
existence-checking variant, an entry whose stripped pattern is non-empty
compiles to the rule whose replacement is the resolved path of the
*first-listed* target whose resolved directory exists (all earlier-listed
targets resolving to non-existing directories), and compiles to no rule at
all when no target's resolved directory exists.  In the
always-first-priority variant the compilation of an entry depends *only*
on the first-listed target (its type consumes no file-system probe at
all), and for an entry with a wildcard pattern and a wildcard first target
(both stripping non-empty) it unconditionally produces the rule built from
that first target, suffix-stripped and placeholder-substituted. -/
theorem c2_target_selection :
    (∀ cwd dirExists root baseUrl pattern remaps i (hi : i < remaps.length),
      Variant1.removeSuffixPatternFromTsAlias pattern ≠ "" →
      dirExists (Variant1.resolveMap cwd (Variant1.effectiveBaseUrl root baseUrl)
        (remaps.get ⟨i, hi⟩)) = true →
      (∀ j (hj : j < remaps.length), j < i →
        dirExists (Variant1.resolveMap cwd (Variant1.effectiveBaseUrl root baseUrl)
          (remaps.get ⟨j, hj⟩)) = false) →
      Variant1.compileEntry cwd dirExists root baseUrl pattern remaps =
        some { find := Variant1.removeSuffixPatternFromTsAlias pattern
               replacement := Variant1.resolveMap cwd
                 (Variant1.effectiveBaseUrl root baseUrl) (remaps.get ⟨i, hi⟩) }) ∧
    (∀ cwd dirExists root baseUrl pattern remaps,
      (∀ m ∈ remaps,
        dirExists (Variant1.resolveMap cwd
          (Variant1.effectiveBaseUrl root baseUrl) m) = false) →
      Variant1.compileEntry cwd dirExists root baseUrl pattern remaps = none) ∧
    (∀ cwd root baseUrl pattern remaps1 remaps2,
      remaps1.head? = remaps2.head? →
      Variant2.compileEntry cwd root baseUrl pattern remaps1 =
        Variant2.compileEntry cwd root baseUrl pattern remaps2) ∧
    (∀ cwd root baseUrl pattern m0 rest,
      strEndsWith pattern "/*" = true → strDropRight pattern 2 ≠ "" →
      strEndsWith m0 "/*" = true → strDropRight m0 2 ≠ "" →
      Variant2.compileEntry cwd root baseUrl pattern (m0 :: rest) =
        .ok (some { find := strDropRight pattern 2
                    replacement := Variant2.aliasReplacement cwd root baseUrl
                      (strDropRight m0 2) })) := by
  refine ⟨?_, ?_, ?_, ?_⟩
  · intro cwd dirExists root baseUrl pattern remaps i hi hne hp hprev
    have hil : i < (Variant1.resolveMaps cwd
        (Variant1.effectiveBaseUrl root baseUrl) remaps).length := by
      simpa [Variant1.resolveMaps] using hi
    have hp2 : dirExists ((Variant1.resolveMaps cwd
        (Variant1.effectiveBaseUrl root baseUrl) remaps).get ⟨i, hil⟩) = true := by
      rw [resolveMaps_get cwd _ remaps i hi hil]
      exact hp
    have hprev2 : ∀ j (hj : j < (Variant1.resolveMaps cwd
        (Variant1.effectiveBaseUrl root baseUrl) remaps).length), j < i →
        dirExists ((Variant1.resolveMaps cwd
          (Variant1.effectiveBaseUrl root baseUrl) remaps).get ⟨j, hj⟩) = false := by
      intro j hj hji
      have hjr : j < remaps.length := by simpa [Variant1.resolveMaps] using hj
      rw [resolveMaps_get cwd _ remaps j hjr hj]
      exact hprev j hjr hji
    rcases filter_head_of_first dirExists _ i hil hp2 hprev2 with ⟨t, ht⟩
    have hmne : ¬ (Variant1.resolveMaps cwd
        (Variant1.effectiveBaseUrl root baseUrl) remaps).get ⟨i, hil⟩ = "" := by
      rw [resolveMaps_get cwd _ remaps i hi hil]
      exact resolveMap_ne_empty _ _ _
    unfold Variant1.compileEntry
    rw [if_neg hne, ht]
    dsimp only
    rw [if_neg hmne, resolveMaps_get cwd _ remaps i hi hil]
  · intro cwd dirExists root baseUrl pattern remaps hall
    unfold Variant1.compileEntry
    by_cases hne : Variant1.removeSuffixPatternFromTsAlias pattern = ""
    · rw [if_pos hne]
    · rw [if_neg hne]
      have hfn : (Variant1.resolveMaps cwd
          (Variant1.effectiveBaseUrl root baseUrl) remaps).filter dirExists = [] := by
        apply filter_eq_nil_of_all
        intro x hx
        rcases List.mem_map.mp hx with ⟨m, hm, rfl⟩
        exact hall m hm
      rw [hfn]
  · intro cwd root baseUrl pattern remaps1 remaps2 hh
    cases remaps1 with
    | nil =>
      cases remaps2 with
      | nil => rfl
      | cons m b => simp at hh
    | cons m a =>
      cases remaps2 with
      | nil => simp at hh
      | cons m2 b =>
        simp only [List.head?] at hh
        injection hh with hm
        rw [hm]
        rfl
  · intro cwd root baseUrl pattern m0 rest hps hpn hms hmn
    unfold Variant2.compileEntry
    dsimp only
    rw [tryExtract_of_suffix hms]
    dsimp only
    rw [if_neg hmn, tryExtract_of_suffix hps]
    dsimp only
    rw [if_neg hpn]

theorem c2_witness :
    Variant1.compileEntry "/cwd" (fun p => p == "/r/src") "/r" none "@x/*"
        ["missing/*", "src/*"] =
      some { find := "@x", replacement := "/r/src" } := by
  have h := c2_target_selection.1 "/cwd" (fun p => p == "/r/src") "/r" none
    "@x/*" ["missing/*", "src/*"] 1 (by decide) (by decide) (by decide)
    (by decide)
  simpa using h

theorem testValuesAux_noTok {vs : List String} (h : ∀ v ∈ vs, NoTok v) :
    ∀ st : Nat, (testValuesAux vs st).1.any id = false := by
  induction vs with
  | nil => intro st; rfl
  | cons v rest ih =>
    intro st
    have hv := regexTestFrom_of_noTok (h v (List.mem_cons_self v rest)) st
    have hvs : jsStringOfOptStr (some v) = v := rfl
    simp only [testValuesAux, hvs, hv]
    cases hts : testValuesAux rest 0 with
    | mk bs st2 =>
      have := ih (fun x hx => h x (List.mem_cons_of_mem v hx)) 0
      rw [hts] at this
      simpa using this

theorem filterPathsValues_noTok {ps : List (String × List String)}
    (h : ∀ e ∈ ps, ∀ v ∈ e.2, NoTok v) :
    ∀ st : Nat, (filterPathsValues ps st).1 = [] ∧
      (filterPathsValues ps st).2.1 = false := by
  induction ps with
  | nil => intro st; exact ⟨rfl, rfl⟩
  | cons e rest ih =>
    intro st
    obtain ⟨p, vs⟩ := e
    cases hts : testValuesAux vs st with
    | mk bs st1 =>
      have hb : bs.any id = false := by
        have := testValuesAux_noTok
          (fun v hv => h (p, vs) (List.mem_cons_self (p, vs) rest) v hv) st
        rw [hts] at this
        simpa using this
      have ihr := ih (fun x hx => h x (List.mem_cons_of_mem (p, vs) hx)) st1
      cases hfp : filterPathsValues rest st1 with
      | mk kept rest2 =>
        cases rest2 with
        | mk flag st2 =>
          rw [hfp] at ihr
          simp only [filterPathsValues, hts, hfp, hb]
          exact ⟨by simpa using ihr.1, by simpa using ihr.2⟩

/-- C4: extends-chain filtering.  A parent config whose `baseUrl` (as the
source stringifies it) contains no configDir placeholder and none of whose
`paths` values contains the placeholder contributes zero compiled rules,
whatever the incoming regex state: its contribution — when it survives at
all (which requires a truthy `baseUrl`) — carries an *empty* filtered
`paths` mapping, which both variants' alias compilers turn into zero
rules, even when the parent's own `paths` mapping is non-empty. -/
theorem c4_extends_filter (st : Nat) (cc : TsConfig)
    (ps : List (String × List String))
    (hps : cc.compilerOptions.paths = some ps)
    (hb : containsToken (jsStringOfOptStr cc.compilerOptions.baseUrl) = false)
    (hv : ∀ e ∈ ps, ∀ v ∈ e.2, containsToken v = false) :
    ∀ u, (processParentContent st (some cc)).1 = some u →
      UnresolvedAlias.paths u = [] ∧
      (∀ cwd dirExists root, Variant1.resolveAliases cwd dirExists root [u] = []) ∧
      (∀ cwd root, Variant2.resolveAliases cwd root [u] = .ok []) := by
  intro u hu
  have hbn : NoTok (jsStringOfOptStr cc.compilerOptions.baseUrl) :=
    noTok_iff_containsToken.mpr hb
  have hreg := regexTestFrom_of_noTok hbn st
  have hupaths : UnresolvedAlias.paths u = [] := by
    simp only [processParentContent, Option.bind, hreg] at hu
    rw [hps] at hu
    dsimp only at hu
    simp only [Bool.false_eq_true, if_false] at hu
    cases hfps : filterPathsValues ps 0 with
    | mk kept rest2 =>
      cases rest2 with
      | mk flag st2 =>
        have hfp0 := filterPathsValues_noTok
          (fun e he v hv2 => noTok_iff_containsToken.mpr (hv e he v hv2)) 0
        rw [hfps] at hu hfp0
        dsimp only at hu hfp0
        rw [hfp0.1, hfp0.2] at hu
        by_cases htr : jsTruthyOptStr cc.compilerOptions.baseUrl = true
        · rw [htr] at hu
          simp only [Bool.not_true, Bool.not_false, Bool.and_false,
            Bool.false_and, Bool.false_eq_true, if_false] at hu
          injection hu with hu1
          rw [← hu1]
        · rw [Bool.not_eq_true] at htr
          rw [htr] at hu
          simp at hu
  refine ⟨hupaths, ?_, ?_⟩
  · intro cwd dirExists root
    have : Variant1.resolveAliases cwd dirExists root [u] =
        Variant1.compileEntries cwd dirExists root u.baseUrl u.paths ++ [] := rfl
    rw [this, hupaths]
    rfl
  · intro cwd root
    have : Variant2.resolveAliases cwd root [u] =
        match Variant2.compileEntries cwd root u.baseUrl u.paths with
        | .error e => .error e
        | .ok head =>
          match (.ok [] : Except JsError (List ResolvedAlias)) with
          | .error e => .error e
          | .ok tail => .ok (head ++ tail) := rfl
    rw [this, hupaths]
    rfl

theorem c4_witness :
    UnresolvedAlias.paths { baseUrl := some "src", paths := [] } = [] ∧
    Variant1.resolveAliases "/cwd" (fun _ => true) "/r"
      [{ baseUrl := some "src", paths := [] }] = [] ∧
    Variant2.resolveAliases "/cwd" "/r"
      [{ baseUrl := some "src", paths := [] }] = .ok [] := by
  have h := c4_extends_filter 0
    { compilerOptions := { paths := some [("@a/*", ["src/*"])], baseUrl := some "src" }
      extendsArr := none }
    [("@a/*", ["src/*"])] rfl (by decide) (by decide)
    { baseUrl := some "src", paths := [] } (by rfl)
  exact ⟨h.1, h.2.1 "/cwd" (fun _ => true) "/r", h.2.2 "/cwd" "/r"⟩

/-- C3 counterexample: a compiled replacement *can* retain the literal
configDir token.  In the existence-checking variant a `baseUrl` that
contains the placeholder in its interior (neither `'.'` nor a
placeholder-prefixed string) flows into the replacement unsubstituted:
with `baseUrl = "/a/$\x7bconfigDir\x7d"` and target `c/*`, the compiled
replacement is `/a/$\x7bconfigDir\x7d/c`, which still contains the token. -/
theorem c3_counterexample :
    Variant1.resolveAliases "/cwd" (fun _ => true) "/r"
        [{ baseUrl := some "/a/$\x7bconfigDir\x7d", paths := [("@x/*", ["c/*"])] }] =
      [{ find := "@x", replacement := "/a/$\x7bconfigDir\x7d/c" }] ∧
    containsToken "/a/$\x7bconfigDir\x7d/c" = true := by
  constructor
  · rfl
  · decide

/-- C3 (amended): placeholder substitution is total except for one leak.
In both variants each compiled replacement is built by path-resolving
strings in which every placeholder occurrence has been globally
substituted, so whenever the cwd and project root are token-free and the
one-pass global substitutions performed on the (effective) baseUrl and on
the suffix-stripped targets leave no token occurrence — which holds for
every non-pathological input, but can fail when a substitution splices
text that recreates the token — no compiled replacement contains the
token.  Exception (the counterexample): in the existence-checking variant
the *effective* baseUrl must itself be token-free, which fails exactly
when a declared baseUrl contains the token neither as `'.'` nor as a
prefix; such a baseUrl flows into the replacement unsubstituted. -/
theorem c3_amended :
    (∀ cwd dirExists root baseUrl pattern remaps r,
      containsToken cwd = false →
      containsToken (Variant1.effectiveBaseUrl root baseUrl) = false →
      (∀ m ∈ remaps, containsToken
        (jsReplaceAll (Variant1.removeSuffixPatternFromTsAlias m)
          configDirToken "") = false) →
      Variant1.compileEntry cwd dirExists root baseUrl pattern remaps = some r →
      containsToken r.replacement = false) ∧
    (∀ cwd root baseUrl pattern remaps r,
      containsToken cwd = false → containsToken root = false →
      (∀ b, Variant2.effectiveBaseUrl root baseUrl = some b →
        containsToken (jsReplaceAll b configDirToken root) = false) →
      (∀ m ∈ remaps,
        containsToken (jsReplaceAll (strDropRight m 2) configDirToken "") = false ∧
        containsToken (jsReplaceAll (strDropRight m 2) configDirToken root) = false) →
      Variant2.compileEntry cwd root baseUrl pattern remaps = .ok (some r) →
      containsToken r.replacement = false) := by
  constructor
  · intro cwd dirExists root baseUrl pattern remaps r hcwd hbase hmaps h
    have hcwdn : NoTok cwd := noTok_iff_containsToken.mpr hcwd
    have hbasen : NoTok (Variant1.effectiveBaseUrl root baseUrl) :=
      noTok_iff_containsToken.mpr hbase
    unfold Variant1.compileEntry at h
    by_cases hne : Variant1.removeSuffixPatternFromTsAlias pattern = ""
    · rw [if_pos hne] at h; cases h
    · rw [if_neg hne] at h
      cases hf : (Variant1.resolveMaps cwd
          (Variant1.effectiveBaseUrl root baseUrl) remaps).filter dirExists with
      | nil => rw [hf] at h; cases h
      | cons map tail =>
        rw [hf] at h
        dsimp only at h
        by_cases hm : map = ""
        · rw [if_pos hm] at h; cases h
        · rw [if_neg hm] at h
          injection h with h1
          have hmem : map ∈ Variant1.resolveMaps cwd
              (Variant1.effectiveBaseUrl root baseUrl) remaps :=
            head_filter_mem hf
          rcases List.mem_map.mp hmem with ⟨m, hmm, hmap⟩
          have hrepl : NoTok (Variant1.resolveMap cwd
              (Variant1.effectiveBaseUrl root baseUrl) m) := by
            unfold Variant1.resolveMap
            by_cases hstar : Variant1.removeSuffixPatternFromTsAlias m = "*"
            · rw [if_pos hstar]
              exact noTok_nodeResolve hcwdn
                (fun p hp => by
                  rcases List.mem_singleton.mp hp with rfl
                  exact hbasen)
            · rw [if_neg hstar]
              refine noTok_nodeResolve hcwdn ?_
              intro p hp
              rcases List.mem_cons.mp hp with rfl | hp2
              · exact hbasen
              · rcases List.mem_singleton.mp hp2 with rfl
                exact noTok_iff_containsToken.mpr (hmaps m hmm)
          rw [← h1]
          dsimp only
          rw [← hmap]
          exact noTok_iff_containsToken.mp hrepl
  · intro cwd root baseUrl pattern remaps r hcwd hroot hbase hmaps h
    have hcwdn : NoTok cwd := noTok_iff_containsToken.mpr hcwd
    have hrootn : NoTok root := noTok_iff_containsToken.mpr hroot
    cases remaps with
    | nil => simp [Variant2.compileEntry] at h
    | cons m0 rest =>
      cases h0 : Variant2.tryExtractFindPatternFromTsAlias m0 with
      | none =>
        simp only [Variant2.compileEntry, h0] at h
        cases h
      | some rn =>
        have hrn : rn = strDropRight m0 2 := (tryExtract_eq_some h0).1
        by_cases h1 : rn = ""
        · simp only [Variant2.compileEntry, h0, if_pos h1] at h
          cases h
        · cases h2 : Variant2.tryExtractFindPatternFromTsAlias pattern with
          | none =>
            simp only [Variant2.compileEntry, h0, if_neg h1, h2] at h
            cases h
          | some fp =>
            by_cases h3 : fp = ""
            · simp only [Variant2.compileEntry, h0, if_neg h1, h2, if_pos h3] at h
              cases h
            · simp only [Variant2.compileEntry, h0, if_neg h1, h2, if_neg h3] at h
              injection h with h4
              injection h4 with h5
              have hm0 := hmaps m0 (List.mem_cons_self m0 rest)
              have hrn1 : NoTok (jsReplaceAll rn configDirToken "") := by
                rw [hrn]; exact noTok_iff_containsToken.mpr hm0.1
              have hrn2 : NoTok (jsReplaceAll rn configDirToken root) := by
                rw [hrn]; exact noTok_iff_containsToken.mpr hm0.2
              have hrepl : NoTok (Variant2.aliasReplacement cwd root baseUrl rn) := by
                unfold Variant2.aliasReplacement
                cases hb : Variant2.effectiveBaseUrl root baseUrl with
                | none =>
                  refine noTok_nodeResolve hcwdn ?_
                  intro p hp
                  rcases List.mem_singleton.mp hp with rfl
                  exact noTok_nodeJoin hrootn hrn1
                | some b =>
                  dsimp only
                  have hbn : NoTok (jsReplaceAll b configDirToken root) :=
                    noTok_iff_containsToken.mpr (hbase b hb)
                  by_cases hbe : b = ""
                  · rw [if_neg (by simp [hbe])]
                    refine noTok_nodeResolve hcwdn ?_
                    intro p hp
                    rcases List.mem_singleton.mp hp with rfl
                    exact noTok_nodeJoin hrootn hrn1
                  · rw [if_pos (by simpa using hbe)]
                    by_cases hct : containsToken b = true
                    · rw [if_pos hct]
                      refine noTok_nodeResolve hcwdn ?_
                      intro p hp
                      rcases List.mem_singleton.mp hp with rfl
                      exact noTok_nodeJoin hbn hrn1
                    · rw [if_neg hct]
                      refine noTok_nodeResolve hcwdn ?_
                      intro p hp
                      rcases List.mem_singleton.mp hp with rfl
                      exact noTok_nodeJoin hbn hrn2
              rw [← h5]
              exact noTok_iff_containsToken.mp hrepl

theorem c3_amended_witness :
    containsToken "/r/src" = false ∧ containsToken "/r/lib" = false :=
  ⟨c3_amended.1 "/cwd" (fun _ => true) "/r" none "@x/*" ["src/*"]
      { find := "@x", replacement := "/r/src" }
      (by decide) (by decide) (by decide) (by rfl),
   c3_amended.2 "/cwd" "/r" (some "$\x7bconfigDir\x7d/lib") "@s/*" ["./*"]
      { find := "@s", replacement := "/r/lib" }
      (by decide) (by decide)
      (by
        intro b hb
        simp [Variant2.effectiveBaseUrl] at hb
        subst hb
        decide)
      (by decide) (by rfl)⟩
